import Mathlib

/-!
Shallow embedding of the PatchMatch correspondence core of `src/analogy.py`
(the patch-matching methods of `Model`, the `Buffer` level state, and the
flow orchestration of `NeuralAnalogy`), together with theorems checking the
natural-language specification against it.  Feature values are modelled as
exact rationals, numpy integer arrays as total functions carrying explicit
shape fields, random draws as an explicit stream, and fallible operations
(those whose tensor indexing can raise in the source) return `Option`.
-/

namespace Analogy

/-- Elementwise product followed by a sum: models `torch.sum(a * b)` for two
flattened patch descriptors. -/
def dotQ (a b : List ℚ) : ℚ := (List.zipWith (fun p q => p * q) a b).sum

/-- One pyramid level of one image as seen by the patch-matching methods of
`Model`: its two normalized patch banks (`patches_orign`, `patches_repro`),
its correspondence field (`indices`, `scores`), and the field's spatial shape
`H x W` (`indices.shape[0]`, `indices.shape[1]` in the source; the patch
banks of a level share this shape).  The numpy arrays are modelled as total
functions read only at bounds-checked coordinates. -/
structure Buffer where
  H : Nat
  W : Nat
  patches_orign : Nat → Nat → List ℚ
  patches_repro : Nat → Nat → List ℚ
  indices : Nat → Nat → ℤ × ℤ
  scores : Nat → Nat → ℚ

/-- Pointwise update of a two-dimensional array, modelling
`array[y, x] = value`. -/
def setCell {α : Type} (g : Nat → Nat → α) (y x : Nat) (v : α) : Nat → Nat → α :=
  fun y' x' => if y' = y ∧ x' = x then v else g y' x'

/-- Models the clamp `min(n - 1, max(v, 0))` used throughout
`Model.patches_propagate` and `Model.patches_search`. -/
def clamp0 (n : Nat) (v : ℤ) : ℤ := min ((n : ℤ) - 1) (max v 0)

/-- Row-major enumeration of the cells of an `H x W` field: the iteration
order of the nested `for y ... for x ...` loops in the source. -/
def rowMajor (H W : Nat) : List (Nat × Nat) :=
  (List.range (H * W)).map (fun k => (k / W, k % W))

/-- Embeds `Model.patches_score` (src/analogy.py lines 91-95), which returns
`0.5 * (sum(first.patches_repro[y, x] * second.patches_orign[v, u]) +
sum(first.patches_orign[y, x] * second.patches_repro[v, u]))`.
Indexing a torch tensor at or beyond its extent raises, hence `Option`
(negative coordinates never reach this function in the source: every stored
coordinate has been clamped nonnegative).  The `padding` argument is accepted
and ignored exactly as in the source. -/
def patches_score (first : Buffer) (y x : Nat) (second : Buffer) (v u : ℤ)
    (padding : Nat) : Option ℚ :=
  if y < first.H ∧ x < first.W ∧ 0 ≤ v ∧ v < (second.H : ℤ) ∧ 0 ≤ u ∧ u < (second.W : ℤ) then
    some ((1 / 2) * (dotQ (first.patches_repro y x) (second.patches_orign v.toNat u.toNat)
      + dotQ (first.patches_orign y x) (second.patches_repro v.toNat u.toNat)))
  else none

/-- The scoring formula transcribed from the spec's words:
`0.5 * (dot(A.repro[y,x], B.orign[v,u]) + dot(A.orign[y,x], B.repro[v,u]))`. -/
def score_spec (first second : Buffer) (y x v u : Nat) : ℚ :=
  (1 / 2) * (dotQ (first.patches_repro y x) (second.patches_orign v u)
    + dotQ (first.patches_orign y x) (second.patches_repro v u))

/-- The greedy acceptance step shared by lines 115-118 and 135-138 of the
source: score the candidate `vu` for cell `(y, x)` of `b` and accept it only
when it strictly beats the stored score. -/
def tryImprove (second : Buffer) (padding : Nat) (y x : Nat) (vu : ℤ × ℤ)
    (b : Buffer) : Option Buffer :=
  (patches_score b y x second vu.1 vu.2 padding).map fun sc =>
    if b.scores y x < sc then
      { b with scores := setCell b.scores y x sc, indices := setCell b.indices y x vu }
    else b

/-- One cell of `Model.patches_initialize` (lines 97-103): store the score of
the index pair already held at that cell. -/
def initCell (second : Buffer) (padding : Nat) (b : Buffer) (c : Nat × Nat) :
    Option Buffer :=
  (patches_score b c.1 c.2 second (b.indices c.1 c.2).1 (b.indices c.1 c.2).2 padding).map
    fun sc => { b with scores := setCell b.scores c.1 c.2 sc }

/-- Embeds `Model.patches_initialize` (lines 97-103): recompute and store the
score of every cell's current index pair; indices are not mutated. -/
def patches_initialize (first second : Buffer) (padding : Nat) : Option Buffer :=
  (rowMajor first.H first.W).foldlM (initCell second padding) first

/-- The two scan offsets of line 111 of the source:
`[(0, -1 if even else +1), (-1 if even else +1, 0)]`. -/
def propOffsets (even : Bool) : List (ℤ × ℤ) :=
  [(0, if even then -1 else 1), (if even then -1 else 1, 0)]

/-- One offset of the propagate body (lines 111-118): read the neighbor's
current index at the clamped neighboring cell, shift it back by the scan
offset, clamp to the field's own bounds, and greedily accept. -/
def propOffsetStep (second : Buffer) (padding : Nat) (y x : Nat) (b : Buffer)
    (o : ℤ × ℤ) : Option Buffer :=
  let vu := b.indices (clamp0 b.H ((y : ℤ) + o.1)).toNat (clamp0 b.W ((x : ℤ) + o.2)).toNat
  tryImprove second padding y x (clamp0 b.H (vu.1 - o.1), clamp0 b.W (vu.2 - o.2)) b

/-- One cell of the propagate sweep: both offsets in the order of line 111. -/
def propCellStep (second : Buffer) (padding : Nat) (even : Bool) (b : Buffer)
    (c : Nat × Nat) : Option Buffer :=
  (propOffsets even).foldlM (propOffsetStep second padding c.1 c.2) b

/-- Embeds `Model.patches_propagate` (lines 105-118): even iterations sweep
the cells row-major top-left to bottom-right, odd iterations sweep them in
the exact reverse order; the sweep reads already-updated neighbors within the
same pass. -/
def patches_propagate (first second : Buffer) (i : Nat) (padding : Nat) :
    Option Buffer :=
  let even : Bool := i % 2 == 0
  let cells := if even then rowMajor first.H first.W else (rowMajor first.H first.W).reverse
  cells.foldlM (propCellStep second padding even) first

/-- One neighbor examination, worded as in the spec: read the neighbor's
current stored index at the cell `(y + dy, x + dx)` clamped into the field,
subtract the scan offset `(dy, dx)`, clamp to the field bounds, and accept
greedily when the candidate improves the stored score. -/
def examineNeighbor (second : Buffer) (padding : Nat) (dy dx : ℤ) (b : Buffer)
    (y x : Nat) : Option Buffer :=
  let n := b.indices (clamp0 b.H ((y : ℤ) + dy)).toNat (clamp0 b.W ((x : ℤ) + dx)).toNat
  tryImprove second padding y x (clamp0 b.H (n.1 - dy), clamp0 b.W (n.2 - dx)) b

/-- Propagate as described by the spec's words: even iterations scan the
field top-left to bottom-right and examine, for each cell, the cell
immediately to the left (scan offset `(0, -1)`) and the cell immediately
above (scan offset `(-1, 0)`); odd iterations scan bottom-right to top-left
and examine the cell immediately to the right (offset `(0, 1)`) and the cell
immediately below (offset `(1, 0)`).  Each candidate is the examined
neighbor's current stored index minus the scan offset, clamped to field
bounds, accepted only on strict improvement. -/
def propagate_spec (first second : Buffer) (i : Nat) (padding : Nat) : Option Buffer :=
  if i % 2 == 0 then
    (rowMajor first.H first.W).foldlM (fun b c =>
      (examineNeighbor second padding 0 (-1) b c.1 c.2).bind fun b1 =>
        examineNeighbor second padding (-1) 0 b1 c.1 c.2) first
  else
    ((rowMajor first.H first.W).reverse).foldlM (fun b c =>
      (examineNeighbor second padding 0 1 b c.1 c.2).bind fun b1 =>
        examineNeighbor second padding 1 0 b1 c.1 c.2) first

/-- Models `np.random.randint(lo, hi)` applied to the explicit stream value
`r`: the result `lo + r % (hi - lo)` ranges over exactly `[lo, hi)` as `r`
ranges over the naturals. -/
def randint (lo hi : ℤ) (r : Nat) : ℤ := lo + (r : ℤ) % (hi - lo)

/-- Candidate generation of `Model.patches_search` (lines 127-133): for a
positive radius, perturb the cell's current match by draws from
`[-radius, radius)` and clamp to the field's own shape (`indices.shape`, the
shape of `first`); otherwise draw from `[0, shape)` of the own shape
directly. -/
def search_candidate (b : Buffer) (radius : ℤ) (y x : Nat) (d1 d2 : Nat) : ℤ × ℤ :=
  if 0 < radius then
    let vu := b.indices y x
    (clamp0 b.H (vu.1 + randint (-radius) radius d1),
     clamp0 b.W (vu.2 + randint (-radius) radius d2))
  else
    (randint 0 (b.H : ℤ) d1, randint 0 (b.W : ℤ) d2)

/-- One repeat of the inner `for _ in range(times)` loop of
`Model.patches_search` (lines 126-138), consuming two stream draws. -/
def searchRepeatStep (second : Buffer) (radius : ℤ) (padding : Nat)
    (rng : Nat → Nat) (y x : Nat) (s : Buffer × Nat) (_t : Nat) :
    Option (Buffer × Nat) :=
  (tryImprove second padding y x
      (search_candidate s.1 radius y x (rng s.2) (rng (s.2 + 1))) s.1).map
    fun b => (b, s.2 + 2)

/-- One cell of the random search: `times` repeats. -/
def searchCellStep (second : Buffer) (times : Nat) (radius : ℤ) (padding : Nat)
    (rng : Nat → Nat) (s : Buffer × Nat) (c : Nat × Nat) : Option (Buffer × Nat) :=
  (List.range times).foldlM (searchRepeatStep second radius padding rng c.1 c.2) s

/-- Embeds `Model.patches_search` (lines 120-138) with the random draws made
explicit: `rng d` is the `d`-th value consumed from the random stream, and
the count of consumed draws is threaded through alongside the buffer. -/
def patches_search (first second : Buffer) (times : Nat) (radius : ℤ)
    (padding : Nat) (rng : Nat → Nat) (c0 : Nat) : Option (Buffer × Nat) :=
  (rowMajor first.H first.W).foldlM (searchCellStep second times radius padding rng) (first, c0)

/-- Embeds the index-seeding part of `NeuralAnalogy.merge_flow`
(lines 288-295): return the child unchanged when the parent is absent;
otherwise double the parent's indices, upsample them by a factor of two with
nearest-neighbor duplication (the effect of
`scipy.ndimage.interpolation.zoom(indices, zoom=(2, 2, 1), order=0)` at an
exact factor of two: output cell `(y, x)` reads input cell `(y / 2, x / 2)`),
check `assert this.indices.shape == zoomed.shape`, and overwrite the child's
indices.  The reproduction-patch blending that follows (lines 297-308) does
not touch `indices`; its normalization step is modelled by
`normalize_desc`. -/
def merge_flow_indices (child : Buffer) (parent : Option Buffer) : Option Buffer :=
  match parent with
  | none => some child
  | some p =>
    let zoomed : Nat → Nat → ℤ × ℤ := fun y x =>
      (2 * (p.indices (y / 2) (x / 2)).1, 2 * (p.indices (y / 2) (x / 2)).2)
    if child.H = 2 * p.H ∧ child.W = 2 * p.W then
      some { child with indices := zoomed }
    else none

/-- One call made by the refinement loop of `NeuralAnalogy.compute_flow`. -/
inductive FlowOp where
  | prop : Nat → FlowOp
  | search : Nat → ℤ → FlowOp
deriving DecidableEq

/-- The repeat count of lines 251-252 of the source:
`r = first.radius if first.radius > 0 else 12` followed by `times = r // 2`. -/
def searchTimes (radius : ℤ) : Nat := ((if 0 < radius then radius else 12) / 2).toNat

/-- The schedule of calls made by the 32-iteration refinement loop of
`NeuralAnalogy.compute_flow` (lines 245-252): even outer iterations propagate
with counter `i / 2`; odd outer iterations random-search with `searchTimes`
repeats at the level's configured radius. -/
def compute_flow_ops (radius : ℤ) : List FlowOp :=
  (List.range 32).map fun i =>
    if i % 2 = 0 then FlowOp.prop (i / 2) else FlowOp.search (searchTimes radius) radius

/-- A field-mutating call on one level, used to state properties of arbitrary
sequences of propagate and random-search steps. -/
inductive MOp where
  | prop : Nat → Nat → MOp
  | search : Nat → ℤ → Nat → MOp
deriving DecidableEq

/-- Run one mutation call against the opposing level `second`, threading the
random-draw counter. -/
def runMOp (second : Buffer) (rng : Nat → Nat) (s : Buffer × Nat) :
    MOp → Option (Buffer × Nat)
  | MOp.prop i p => (patches_propagate s.1 second i p).map fun b => (b, s.2)
  | MOp.search t r p => patches_search s.1 second t r p rng s.2

/-- Run a sequence of mutation calls. -/
def runOps (second : Buffer) (rng : Nat → Nat) (s : Buffer × Nat)
    (ops : List MOp) : Option (Buffer × Nat) :=
  ops.foldlM (runMOp second rng) s

/-- Sum of squares of a flattened patch descriptor:
`np.sum(patches ** 2.0, axis=(2,))` for one descriptor. -/
def sumSq (d : List ℚ) : ℚ := (d.map (fun a => a * a)).sum

/-- One entry of numpy's `patches / patches_norm` (`Buffer.__init__`,
lines 151-152, and again `NeuralAnalogy.merge_flow`, lines 306-308): the IEEE
quotient `num / sqrt(normSq)` kept symbolically, which is exact because
`sqrt(normSq) = 0` iff `normSq = 0`, the quotient is the IEEE value
`0 / 0 = NaN` exactly when both vanish, and it is a finite zero exactly when
`num = 0` with `normSq` nonzero.  No guard precedes the division in the
source. -/
structure NormEntry where
  num : ℚ
  normSq : ℚ
deriving DecidableEq

/-- The entry is IEEE NaN: zero numerator over a zero norm. -/
def NormEntry.isNaN (e : NormEntry) : Prop := e.normSq = 0 ∧ e.num = 0

instance (e : NormEntry) : Decidable (NormEntry.isNaN e) :=
  inferInstanceAs (Decidable (e.normSq = 0 ∧ e.num = 0))

/-- The entry is a finite zero: zero numerator over a nonzero norm. -/
def NormEntry.isZero (e : NormEntry) : Prop := e.normSq ≠ 0 ∧ e.num = 0

instance (e : NormEntry) : Decidable (NormEntry.isZero e) :=
  inferInstanceAs (Decidable (e.normSq ≠ 0 ∧ e.num = 0))

/-- The normalization `patches / patches_norm` of one descriptor: every entry
is divided by the descriptor's own Euclidean norm, with no zero-norm guard. -/
def normalize_desc (d : List ℚ) : List NormEntry := d.map fun a => ⟨a, sumSq d⟩

/-- A concrete 2 x 2 level used by witnesses. -/
def bufA : Buffer where
  H := 2
  W := 2
  patches_orign := fun _ _ => [1, 0]
  patches_repro := fun _ _ => [0, 1]
  indices := fun y x => ((y : ℤ), (x : ℤ))
  scores := fun _ _ => 0

/-- A concrete 1 x 2 level whose identity indices already place its own
right-hand cell outside a 1 x 1 opposing field. -/
def cexFirst : Buffer where
  H := 1
  W := 2
  patches_orign := fun _ _ => [0]
  patches_repro := fun _ _ => [0]
  indices := fun y x => ((y : ℤ), (x : ℤ))
  scores := fun _ _ => 1000

/-- A concrete 1 x 1 opposing level. -/
def cexSecond : Buffer where
  H := 1
  W := 1
  patches_orign := fun _ _ => [0]
  patches_repro := fun _ _ => [0]
  indices := fun _ _ => (0, 0)
  scores := fun _ _ => 0

/-- Stored scores agree with the scoring formula at the stored indices: the
no-divergence invariant of the spec.  The padding argument of
`patches_score` is irrelevant (it is ignored by the source), so `0` is
used. -/
def coherent (b second : Buffer) : Prop :=
  ∀ y, y < b.H → ∀ x, x < b.W →
    patches_score b y x second (b.indices y x).1 (b.indices y x).2 0 = some (b.scores y x)

/-- Every stored index pair lies inside the field's own `H x W` bounds (the
bounds the source actually clamps against: `first.indices.shape`). -/
def inOwnBounds (b : Buffer) : Prop :=
  ∀ y, y < b.H → ∀ x, x < b.W →
    0 ≤ (b.indices y x).1 ∧ (b.indices y x).1 < (b.H : ℤ) ∧
    0 ≤ (b.indices y x).2 ∧ (b.indices y x).2 < (b.W : ℤ)

instance (b second : Buffer) : Decidable (coherent b second) := by
  unfold coherent
  infer_instance

instance (b : Buffer) : Decidable (inOwnBounds b) := by
  unfold inOwnBounds
  infer_instance

theorem foldlM_option_ind {α β : Type} (P : β → Prop) (f : β → α → Option β) :
    ∀ (l : List α), (∀ b a b1, a ∈ l → P b → f b a = some b1 → P b1) →
      ∀ b b1, P b → List.foldlM f b l = some b1 → P b1 := by
  intro l
  induction l with
  | nil =>
    intro _ b b1 hP h
    simp only [List.foldlM_nil] at h
    cases h
    exact hP
  | cons a l ih =>
    intro hstep b b1 hP h
    simp only [List.foldlM_cons] at h
    cases ha : f b a with
    | none => rw [ha] at h; exact absurd h (by simp)
    | some b2 =>
      rw [ha] at h
      simp only [Option.bind_eq_bind, Option.some_bind] at h
      exact ih (fun b a' b' ha' => hstep b a' b' (List.mem_cons_of_mem _ ha'))
        b2 b1 (hstep b a b2 (List.mem_cons_self _ _) hP ha) h

theorem foldlM_option_total {α β : Type} (f : β → α → Option β) :
    ∀ (l : List α), (∀ b a, a ∈ l → (f b a).isSome) →
      ∀ b, (List.foldlM f b l).isSome := by
  intro l
  induction l with
  | nil => intro _ b; simp only [List.foldlM_nil]; rfl
  | cons a l ih =>
    intro hstep b
    simp only [List.foldlM_cons]
    cases ha : f b a with
    | none =>
      have := hstep b a (List.mem_cons_self _ _)
      rw [ha] at this
      exact absurd this (by simp)
    | some b2 =>
      simp only [Option.bind_eq_bind, Option.some_bind]
      exact ih (fun b' a' ha' => hstep b' a' (List.mem_cons_of_mem _ ha')) b2

theorem foldlM_option_congr {α β : Type} (f g : β → α → Option β) :
    ∀ (l : List α), (∀ b a, a ∈ l → f b a = g b a) →
      ∀ b, List.foldlM f b l = List.foldlM g b l := by
  intro l
  induction l with
  | nil => intro _ b; rfl
  | cons a l ih =>
    intro h b
    simp only [List.foldlM_cons, h b a (List.mem_cons_self _ _)]
    cases g b a with
    | none => rfl
    | some b2 =>
      simp only [Option.bind_eq_bind, Option.some_bind]
      exact ih (fun b' a' ha' => h b' a' (List.mem_cons_of_mem _ ha')) b2

theorem mem_rowMajor {H W y x : Nat} : (y, x) ∈ rowMajor H W ↔ y < H ∧ x < W := by
  simp only [rowMajor, List.mem_map, List.mem_range]
  constructor
  · rintro ⟨k, hk, hpair⟩
    have hW : 0 < W := by
      by_contra h0
      have hW0 : W = 0 := by omega
      subst hW0
      simp at hk
    have h1 : k / W = y := congrArg Prod.fst hpair
    have h2 : k % W = x := congrArg Prod.snd hpair
    constructor
    · rw [← h1]
      exact Nat.div_lt_of_lt_mul (by rw [Nat.mul_comm W H]; exact hk)
    · rw [← h2]
      exact Nat.mod_lt _ hW
  · rintro ⟨hy, hx⟩
    have hW : 0 < W := by omega
    refine ⟨W * y + x, by nlinarith, ?_⟩
    have hdiv : (W * y + x) / W = y := by
      rw [Nat.mul_add_div hW, Nat.div_eq_of_lt hx]
      omega
    have hmod : (W * y + x) % W = x := by
      rw [Nat.mul_add_mod, Nat.mod_eq_of_lt hx]
    rw [hdiv, hmod]

theorem clamp0_bounds {n : Nat} (hn : 0 < n) (v : ℤ) :
    0 ≤ clamp0 n v ∧ clamp0 n v < (n : ℤ) := by
  unfold clamp0
  constructor
  · exact le_min (by omega) (le_max_right v 0)
  · exact lt_of_le_of_lt (min_le_left _ _) (by omega)

theorem randint_bounds {lo hi : ℤ} (h : lo < hi) (r : Nat) :
    lo ≤ randint lo hi r ∧ randint lo hi r < hi := by
  unfold randint
  have h1 : 0 ≤ (r : ℤ) % (hi - lo) := Int.emod_nonneg _ (by omega)
  have h2 : (r : ℤ) % (hi - lo) < hi - lo := Int.emod_lt_of_pos _ (by omega)
  omega

theorem randint_eq_self {n : ℤ} {r : Nat} (h : (r : ℤ) < n) : randint 0 n r = r := by
  unfold randint
  rw [sub_zero, Int.emod_eq_of_lt (by positivity) h, zero_add]

theorem patches_score_padding (first : Buffer) (y x : Nat) (second : Buffer)
    (v u : ℤ) (p : Nat) :
    patches_score first y x second v u p = patches_score first y x second v u 0 := rfl

theorem patches_score_congr {b b1 : Buffer} (h1 : b1.H = b.H) (h2 : b1.W = b.W)
    (h3 : b1.patches_orign = b.patches_orign) (h4 : b1.patches_repro = b.patches_repro)
    (second : Buffer) (y x : Nat) (v u : ℤ) (p : Nat) :
    patches_score b1 y x second v u p = patches_score b y x second v u p := by
  unfold patches_score
  rw [h1, h2, h3, h4]

theorem tryImprove_eq_some {second : Buffer} {padding y x : Nat} {vu : ℤ × ℤ}
    {b b1 : Buffer} (h : tryImprove second padding y x vu b = some b1) :
    ∃ sc, patches_score b y x second vu.1 vu.2 padding = some sc ∧
      b1 = (if b.scores y x < sc then
        { b with scores := setCell b.scores y x sc, indices := setCell b.indices y x vu }
      else b) := by
  unfold tryImprove at h
  cases hs : patches_score b y x second vu.1 vu.2 padding with
  | none => rw [hs] at h; simp at h
  | some sc =>
    rw [hs] at h
    simp at h
    exact ⟨sc, rfl, h.symm⟩

theorem tryImprove_same {second : Buffer} {padding y x : Nat} {vu : ℤ × ℤ}
    {b b1 : Buffer} (h : tryImprove second padding y x vu b = some b1) :
    b1.H = b.H ∧ b1.W = b.W ∧ b1.patches_orign = b.patches_orign ∧
      b1.patches_repro = b.patches_repro := by
  obtain ⟨sc, _, rfl⟩ := tryImprove_eq_some h
  split <;> exact ⟨rfl, rfl, rfl, rfl⟩

theorem tryImprove_mono {second : Buffer} {padding y x : Nat} {vu : ℤ × ℤ}
    {b b1 : Buffer} (h : tryImprove second padding y x vu b = some b1) :
    ∀ y1 x1, b.scores y1 x1 ≤ b1.scores y1 x1 := by
  obtain ⟨sc, _, rfl⟩ := tryImprove_eq_some h
  intro y1 x1
  split
  · rename_i hlt
    by_cases hc : y1 = y ∧ x1 = x
    · obtain ⟨h1, h2⟩ := hc
      subst h1; subst h2
      simp only [setCell, if_pos (And.intro rfl rfl)]
      exact le_of_lt hlt
    · simp only [setCell, if_neg hc]
      exact le_refl _
  · exact le_refl _

theorem tryImprove_coherent {second : Buffer} {padding y x : Nat} {vu : ℤ × ℤ}
    {b b1 : Buffer} (h : tryImprove second padding y x vu b = some b1)
    (hc : coherent b second) : coherent b1 second := by
  obtain ⟨sc, hs, rfl⟩ := tryImprove_eq_some h
  split
  · rename_i hlt
    intro y1 hy1 x1 hx1
    by_cases hcell : y1 = y ∧ x1 = x
    · obtain ⟨h1, h2⟩ := hcell
      subst h1; subst h2
      simp only [setCell, if_pos (And.intro rfl rfl)]
      exact hs
    · simp only [setCell, if_neg hcell]
      exact hc y1 hy1 x1 hx1
  · exact hc

theorem tryImprove_inOwnBounds {second : Buffer} {padding y x : Nat} {vu : ℤ × ℤ}
    {b b1 : Buffer} (h : tryImprove second padding y x vu b = some b1)
    (hb : inOwnBounds b)
    (hvu : 0 ≤ vu.1 ∧ vu.1 < (b.H : ℤ) ∧ 0 ≤ vu.2 ∧ vu.2 < (b.W : ℤ)) :
    inOwnBounds b1 := by
  obtain ⟨sc, _, rfl⟩ := tryImprove_eq_some h
  split
  · intro y1 hy1 x1 hx1
    by_cases hcell : y1 = y ∧ x1 = x
    · simp only [setCell, if_pos hcell]
      exact hvu
    · simp only [setCell, if_neg hcell]
      exact hb y1 hy1 x1 hx1
  · exact hb

theorem tryImprove_isSome {second : Buffer} {padding y x : Nat} {vu : ℤ × ℤ}
    {b : Buffer} (hy : y < b.H) (hx : x < b.W)
    (hv : 0 ≤ vu.1 ∧ vu.1 < (second.H : ℤ)) (hu : 0 ≤ vu.2 ∧ vu.2 < (second.W : ℤ)) :
    (tryImprove second padding y x vu b).isSome := by
  unfold tryImprove patches_score
  simp [hy, hx, hv.1, hv.2, hu.1, hu.2]

theorem foldlM_option_total_inv {α β : Type} (P : β → Prop) (f : β → α → Option β) :
    ∀ (l : List α), (∀ b a, a ∈ l → P b → ∃ b1, f b a = some b1 ∧ P b1) →
      ∀ b, P b → ∃ b1, List.foldlM f b l = some b1 ∧ P b1 := by
  intro l
  induction l with
  | nil => intro _ b hP; exact ⟨b, rfl, hP⟩
  | cons a l ih =>
    intro hstep b hP
    obtain ⟨b2, ha, hP2⟩ := hstep b a (List.mem_cons_self _ _) hP
    obtain ⟨b1, hfold, hP1⟩ :=
      ih (fun b' a' ha' hP' => hstep b' a' (List.mem_cons_of_mem _ ha') hP') b2 hP2
    refine ⟨b1, ?_, hP1⟩
    simp only [List.foldlM_cons, ha, Option.bind_eq_bind, Option.some_bind]
    exact hfold

theorem propOffsetStep_cand (second : Buffer) (p y x : Nat) (b : Buffer) (o : ℤ × ℤ) :
    ∃ vu, propOffsetStep second p y x b o = tryImprove second p y x vu b ∧
      (0 < b.H → 0 < b.W →
        0 ≤ vu.1 ∧ vu.1 < (b.H : ℤ) ∧ 0 ≤ vu.2 ∧ vu.2 < (b.W : ℤ)) := by
  refine ⟨_, rfl, ?_⟩
  intro hH hW
  exact ⟨(clamp0_bounds hH _).1, (clamp0_bounds hH _).2,
    (clamp0_bounds hW _).1, (clamp0_bounds hW _).2⟩

theorem search_candidate_bounds {b : Buffer} (radius : ℤ) (y x d1 d2 : Nat)
    (hH : 0 < b.H) (hW : 0 < b.W) :
    0 ≤ (search_candidate b radius y x d1 d2).1 ∧
    (search_candidate b radius y x d1 d2).1 < (b.H : ℤ) ∧
    0 ≤ (search_candidate b radius y x d1 d2).2 ∧
    (search_candidate b radius y x d1 d2).2 < (b.W : ℤ) := by
  unfold search_candidate
  split
  · exact ⟨(clamp0_bounds hH _).1, (clamp0_bounds hH _).2,
      (clamp0_bounds hW _).1, (clamp0_bounds hW _).2⟩
  · have h1 := randint_bounds (show (0 : ℤ) < (b.H : ℤ) by omega) d1
    have h2 := randint_bounds (show (0 : ℤ) < (b.W : ℤ) by omega) d2
    exact ⟨h1.1, h1.2, h2.1, h2.2⟩

theorem searchRepeatStep_eq_some {second : Buffer} {radius : ℤ} {p : Nat}
    {rng : Nat → Nat} {y x : Nat} {s s1 : Buffer × Nat}
    {t : Nat} (h : searchRepeatStep second radius p rng y x s t = some s1) :
    tryImprove second p y x
      (search_candidate s.1 radius y x (rng s.2) (rng (s.2 + 1))) s.1 = some s1.1 := by
  unfold searchRepeatStep at h
  cases ht : tryImprove second p y x
      (search_candidate s.1 radius y x (rng s.2) (rng (s.2 + 1))) s.1 with
  | none => rw [ht] at h; simp at h
  | some b2 =>
    rw [ht] at h
    injection h with h
    rw [← h]

theorem propCellStep_mono {second : Buffer} {p : Nat} {even : Bool} {b b1 : Buffer}
    {c : Nat × Nat} (h : propCellStep second p even b c = some b1) :
    ∀ y x, b.scores y x ≤ b1.scores y x := by
  intro y x
  unfold propCellStep at h
  refine foldlM_option_ind (fun b2 => b.scores y x ≤ b2.scores y x) _ _ ?_ b b1 (le_refl _) h
  intro b2 o b3 _ hle hstep
  obtain ⟨vu, heq, _⟩ := propOffsetStep_cand second p c.1 c.2 b2 o
  rw [heq] at hstep
  exact le_trans hle (tryImprove_mono hstep y x)

theorem propCellStep_coherent {second : Buffer} {p : Nat} {even : Bool} {b b1 : Buffer}
    {c : Nat × Nat} (h : propCellStep second p even b c = some b1)
    (hc : coherent b second) : coherent b1 second := by
  unfold propCellStep at h
  refine foldlM_option_ind (fun b2 => coherent b2 second) _ _ ?_ b b1 hc h
  intro b2 o b3 _ hc2 hstep
  obtain ⟨vu, heq, _⟩ := propOffsetStep_cand second p c.1 c.2 b2 o
  rw [heq] at hstep
  exact tryImprove_coherent hstep hc2

theorem propCellStep_shape_bounds {second : Buffer} {p : Nat} {even : Bool}
    {b b1 : Buffer} {c : Nat × Nat} (h : propCellStep second p even b c = some b1)
    (hH : 0 < b.H) (hW : 0 < b.W) (hb : inOwnBounds b) :
    b1.H = b.H ∧ b1.W = b.W ∧ inOwnBounds b1 := by
  unfold propCellStep at h
  refine foldlM_option_ind (fun b2 => b2.H = b.H ∧ b2.W = b.W ∧ inOwnBounds b2) _ _ ?_
    b b1 ⟨rfl, rfl, hb⟩ h
  intro b2 o b3 _ hP hstep
  obtain ⟨vu, heq, hbnd⟩ := propOffsetStep_cand second p c.1 c.2 b2 o
  rw [heq] at hstep
  obtain ⟨hsH, hsW, _, _⟩ := tryImprove_same hstep
  refine ⟨hsH.trans hP.1, hsW.trans hP.2.1, ?_⟩
  exact tryImprove_inOwnBounds hstep hP.2.2
    (hbnd (hP.1 ▸ hH) (hP.2.1 ▸ hW))

theorem searchCellStep_mono {second : Buffer} {times : Nat} {radius : ℤ} {p : Nat}
    {rng : Nat → Nat} {s s1 : Buffer × Nat} {c : Nat × Nat}
    (h : searchCellStep second times radius p rng s c = some s1) :
    ∀ y x, s.1.scores y x ≤ s1.1.scores y x := by
  intro y x
  unfold searchCellStep at h
  refine foldlM_option_ind (fun s2 => s.1.scores y x ≤ s2.1.scores y x) _ _ ?_ s s1 (le_refl _) h
  intro s2 t s3 _ hle hstep
  exact le_trans hle (tryImprove_mono (searchRepeatStep_eq_some hstep) y x)

theorem searchCellStep_coherent {second : Buffer} {times : Nat} {radius : ℤ} {p : Nat}
    {rng : Nat → Nat} {s s1 : Buffer × Nat} {c : Nat × Nat}
    (h : searchCellStep second times radius p rng s c = some s1)
    (hc : coherent s.1 second) : coherent s1.1 second := by
  unfold searchCellStep at h
  refine foldlM_option_ind (fun s2 => coherent s2.1 second) _ _ ?_ s s1 hc h
  intro s2 t s3 _ hc2 hstep
  exact tryImprove_coherent (searchRepeatStep_eq_some hstep) hc2

theorem searchCellStep_shape_bounds {second : Buffer} {times : Nat} {radius : ℤ} {p : Nat}
    {rng : Nat → Nat} {s s1 : Buffer × Nat} {c : Nat × Nat}
    (h : searchCellStep second times radius p rng s c = some s1)
    (hH : 0 < s.1.H) (hW : 0 < s.1.W) (hb : inOwnBounds s.1) :
    s1.1.H = s.1.H ∧ s1.1.W = s.1.W ∧ inOwnBounds s1.1 := by
  unfold searchCellStep at h
  refine foldlM_option_ind
    (fun s2 => s2.1.H = s.1.H ∧ s2.1.W = s.1.W ∧ inOwnBounds s2.1) _ _ ?_
    s s1 ⟨rfl, rfl, hb⟩ h
  intro s2 t s3 _ hP hstep
  have hstep' := searchRepeatStep_eq_some hstep
  obtain ⟨hsH, hsW, _, _⟩ := tryImprove_same hstep'
  refine ⟨hsH.trans hP.1, hsW.trans hP.2.1, ?_⟩
  exact tryImprove_inOwnBounds hstep' hP.2.2
    (search_candidate_bounds radius c.1 c.2 _ _ (hP.1 ▸ hH) (hP.2.1 ▸ hW))

theorem patches_propagate_mono {first second : Buffer} {i p : Nat} {b1 : Buffer}
    (h : patches_propagate first second i p = some b1) :
    ∀ y x, first.scores y x ≤ b1.scores y x := by
  intro y x
  simp only [patches_propagate] at h
  split at h <;>
  · refine foldlM_option_ind (fun b2 => first.scores y x ≤ b2.scores y x) _ _ ?_
      first b1 (le_refl _) h
    intro b2 c b3 _ hle hstep
    exact le_trans hle (propCellStep_mono hstep y x)

theorem patches_propagate_coherent {first second : Buffer} {i p : Nat} {b1 : Buffer}
    (h : patches_propagate first second i p = some b1)
    (hc : coherent first second) : coherent b1 second := by
  simp only [patches_propagate] at h
  split at h <;>
  · refine foldlM_option_ind (fun b2 => coherent b2 second) _ _ ?_ first b1 hc h
    intro b2 c b3 _ hc2 hstep
    exact propCellStep_coherent hstep hc2

theorem patches_propagate_inOwnBounds {first second : Buffer} {i p : Nat} {b1 : Buffer}
    (h : patches_propagate first second i p = some b1)
    (hb : inOwnBounds first) : inOwnBounds b1 := by
  simp only [patches_propagate] at h
  split at h
  · refine (foldlM_option_ind
      (fun b2 => b2.H = first.H ∧ b2.W = first.W ∧ inOwnBounds b2) _ _ ?_
      first b1 ⟨rfl, rfl, hb⟩ h).2.2
    intro b2 c b3 hmem hP hstep
    obtain ⟨cy, cx⟩ := c
    have hcb := mem_rowMajor.mp hmem
    obtain ⟨h1, h2, h3⟩ := propCellStep_shape_bounds hstep
      (hP.1 ▸ Nat.lt_of_le_of_lt (Nat.zero_le _) hcb.1)
      (hP.2.1 ▸ Nat.lt_of_le_of_lt (Nat.zero_le _) hcb.2) hP.2.2
    exact ⟨h1.trans hP.1, h2.trans hP.2.1, h3⟩
  · refine (foldlM_option_ind
      (fun b2 => b2.H = first.H ∧ b2.W = first.W ∧ inOwnBounds b2) _ _ ?_
      first b1 ⟨rfl, rfl, hb⟩ h).2.2
    intro b2 c b3 hmem hP hstep
    rw [List.mem_reverse] at hmem
    obtain ⟨cy, cx⟩ := c
    have hcb := mem_rowMajor.mp hmem
    obtain ⟨h1, h2, h3⟩ := propCellStep_shape_bounds hstep
      (hP.1 ▸ Nat.lt_of_le_of_lt (Nat.zero_le _) hcb.1)
      (hP.2.1 ▸ Nat.lt_of_le_of_lt (Nat.zero_le _) hcb.2) hP.2.2
    exact ⟨h1.trans hP.1, h2.trans hP.2.1, h3⟩

theorem patches_search_mono {first second : Buffer} {times : Nat} {radius : ℤ}
    {p : Nat} {rng : Nat → Nat} {c0 : Nat} {out : Buffer × Nat}
    (h : patches_search first second times radius p rng c0 = some out) :
    ∀ y x, first.scores y x ≤ out.1.scores y x := by
  intro y x
  unfold patches_search at h
  refine foldlM_option_ind (fun s2 => first.scores y x ≤ s2.1.scores y x) _ _ ?_
    (first, c0) out (le_refl _) h
  intro s2 c s3 _ hle hstep
  exact le_trans hle (searchCellStep_mono hstep y x)

theorem patches_search_coherent {first second : Buffer} {times : Nat} {radius : ℤ}
    {p : Nat} {rng : Nat → Nat} {c0 : Nat} {out : Buffer × Nat}
    (h : patches_search first second times radius p rng c0 = some out)
    (hc : coherent first second) : coherent out.1 second := by
  unfold patches_search at h
  refine foldlM_option_ind (fun s2 => coherent s2.1 second) _ _ ?_ (first, c0) out hc h
  intro s2 c s3 _ hc2 hstep
  exact searchCellStep_coherent hstep hc2

theorem patches_search_inOwnBounds {first second : Buffer} {times : Nat} {radius : ℤ}
    {p : Nat} {rng : Nat → Nat} {c0 : Nat} {out : Buffer × Nat}
    (h : patches_search first second times radius p rng c0 = some out)
    (hb : inOwnBounds first) : inOwnBounds out.1 := by
  unfold patches_search at h
  refine (foldlM_option_ind
    (fun s2 => s2.1.H = first.H ∧ s2.1.W = first.W ∧ inOwnBounds s2.1) _ _ ?_
    (first, c0) out ⟨rfl, rfl, hb⟩ h).2.2
  intro s2 c s3 hmem hP hstep
  obtain ⟨cy, cx⟩ := c
  have hcb := mem_rowMajor.mp hmem
  obtain ⟨h1, h2, h3⟩ := searchCellStep_shape_bounds hstep
    (hP.1 ▸ Nat.lt_of_le_of_lt (Nat.zero_le _) hcb.1)
    (hP.2.1 ▸ Nat.lt_of_le_of_lt (Nat.zero_le _) hcb.2) hP.2.2
  exact ⟨h1.trans hP.1, h2.trans hP.2.1, h3⟩

theorem runOps_mono {second : Buffer} {rng : Nat → Nat} {s : Buffer × Nat}
    {ops : List MOp} {out : Buffer × Nat}
    (h : runOps second rng s ops = some out) :
    ∀ y x, s.1.scores y x ≤ out.1.scores y x := by
  intro y x
  unfold runOps at h
  refine foldlM_option_ind (fun s2 => s.1.scores y x ≤ s2.1.scores y x) _ _ ?_
    s out (le_refl _) h
  intro s2 op s3 _ hle hstep
  cases op with
  | prop i p =>
    simp only [runMOp] at hstep
    cases hp : patches_propagate s2.1 second i p with
    | none => rw [hp] at hstep; simp at hstep
    | some b3 =>
      rw [hp] at hstep
      injection hstep with hstep
      rw [← hstep]
      exact le_trans hle (patches_propagate_mono hp y x)
  | search t r p =>
    simp only [runMOp] at hstep
    exact le_trans hle (patches_search_mono hstep y x)

theorem runOps_coherent {second : Buffer} {rng : Nat → Nat} {s : Buffer × Nat}
    {ops : List MOp} {out : Buffer × Nat}
    (h : runOps second rng s ops = some out) (hc : coherent s.1 second) :
    coherent out.1 second := by
  unfold runOps at h
  refine foldlM_option_ind (fun s2 => coherent s2.1 second) _ _ ?_ s out hc h
  intro s2 op s3 _ hc2 hstep
  cases op with
  | prop i p =>
    simp only [runMOp] at hstep
    cases hp : patches_propagate s2.1 second i p with
    | none => rw [hp] at hstep; simp at hstep
    | some b3 =>
      rw [hp] at hstep
      injection hstep with hstep
      rw [← hstep]
      exact patches_propagate_coherent hp hc2
  | search t r p =>
    simp only [runMOp] at hstep
    exact patches_search_coherent hstep hc2

theorem init_fold_char (second : Buffer) (p : Nat) :
    ∀ (cells : List (Nat × Nat)) (b b1 : Buffer),
      List.foldlM (initCell second p) b cells = some b1 →
      b1.H = b.H ∧ b1.W = b.W ∧ b1.patches_orign = b.patches_orign ∧
      b1.patches_repro = b.patches_repro ∧ b1.indices = b.indices ∧
      ∀ y x, ((y, x) ∈ cells →
          patches_score b y x second (b.indices y x).1 (b.indices y x).2 p =
            some (b1.scores y x)) ∧
        ((y, x) ∉ cells → b1.scores y x = b.scores y x) := by
  intro cells
  induction cells with
  | nil =>
    intro b b1 h
    simp only [List.foldlM_nil] at h
    cases h
    exact ⟨rfl, rfl, rfl, rfl, rfl, fun y x => ⟨fun hmem => absurd hmem (by simp), fun _ => rfl⟩⟩
  | cons c cells ih =>
    intro b b1 h
    simp only [List.foldlM_cons] at h
    cases hcell : initCell second p b c with
    | none => rw [hcell] at h; exact absurd h (by simp)
    | some b2 =>
      rw [hcell] at h
      simp only [Option.bind_eq_bind, Option.some_bind] at h
      unfold initCell at hcell
      cases hs : patches_score b c.1 c.2 second (b.indices c.1 c.2).1 (b.indices c.1 c.2).2 p with
      | none => rw [hs] at hcell; exact absurd hcell (by simp)
      | some sc =>
        rw [hs] at hcell
        obtain ⟨e1, e2, e3, e4, e5, hsc⟩ := ih b2 b1 h
        injection hcell with hcell
        subst hcell
        refine ⟨e1, e2, e3, e4, e5, fun y x => ⟨?_, ?_⟩⟩
        · intro hmem
          by_cases hin : (y, x) ∈ cells
          · exact ((hsc y x).1 hin : _)
          · have hyx : (y, x) = c := by
              cases List.mem_cons.mp hmem with
              | inl h0 => exact h0
              | inr h0 => exact absurd h0 hin
            have h2 := (hsc y x).2 hin
            rw [h2]
            have hy : y = c.1 := congrArg Prod.fst hyx
            have hx : x = c.2 := congrArg Prod.snd hyx
            subst hy; subst hx
            simp only [setCell, if_pos (And.intro rfl rfl)]
            exact hs
        · intro hmem
          have hin : (y, x) ∉ cells := fun h0 => hmem (List.mem_cons_of_mem _ h0)
          have hne : ¬(y = c.1 ∧ x = c.2) := by
            intro h0
            exact hmem (by
              have : (y, x) = c := Prod.ext h0.1 h0.2
              rw [this]
              exact List.mem_cons_self _ _)
          have h2 := (hsc y x).2 hin
          rw [h2]
          simp only [setCell, if_neg hne]

theorem rowMajor_mem_bounds {H W : Nat} : ∀ c ∈ rowMajor H W, c.1 < H ∧ c.2 < W := by
  intro c hc
  obtain ⟨cy, cx⟩ := c
  exact mem_rowMajor.mp hc

theorem propOffsetStep_eq_examine (second : Buffer) (p y x : Nat) (b : Buffer)
    (dy dx : ℤ) :
    propOffsetStep second p y x b (dy, dx) = examineNeighbor second p dy dx b y x := rfl

theorem propCellStep_spec_even (second : Buffer) (p : Nat) (b : Buffer) (c : Nat × Nat) :
    propCellStep second p true b c =
      (examineNeighbor second p 0 (-1) b c.1 c.2).bind fun b1 =>
        examineNeighbor second p (-1) 0 b1 c.1 c.2 := by
  show List.foldlM (propOffsetStep second p c.1 c.2) b [(0, -1), (-1, 0)] = _
  simp only [List.foldlM_cons, List.foldlM_nil, propOffsetStep_eq_examine]
  cases examineNeighbor second p 0 (-1) b c.1 c.2 with
  | none => rfl
  | some b1 =>
    simp only [Option.bind_eq_bind, Option.some_bind]
    cases examineNeighbor second p (-1) 0 b1 c.1 c.2 <;> rfl

theorem propCellStep_spec_odd (second : Buffer) (p : Nat) (b : Buffer) (c : Nat × Nat) :
    propCellStep second p false b c =
      (examineNeighbor second p 0 1 b c.1 c.2).bind fun b1 =>
        examineNeighbor second p 1 0 b1 c.1 c.2 := by
  show List.foldlM (propOffsetStep second p c.1 c.2) b [(0, 1), (1, 0)] = _
  simp only [List.foldlM_cons, List.foldlM_nil, propOffsetStep_eq_examine]
  cases examineNeighbor second p 0 1 b c.1 c.2 with
  | none => rfl
  | some b1 =>
    simp only [Option.bind_eq_bind, Option.some_bind]
    cases examineNeighbor second p 1 0 b1 c.1 c.2 <;> rfl

theorem patches_propagate_eq_spec (first second : Buffer) (i p : Nat) :
    patches_propagate first second i p = propagate_spec first second i p := by
  simp only [patches_propagate, propagate_spec]
  cases (i % 2 == 0) with
  | true =>
    simp only [if_pos rfl]
    exact foldlM_option_congr _ _ _
      (fun b c _ => propCellStep_spec_even second p b c) first
  | false =>
    simp only [if_neg Bool.false_ne_true]
    exact foldlM_option_congr _ _ _
      (fun b c _ => propCellStep_spec_odd second p b c) first

theorem propCellStep_total {second : Buffer} (p : Nat) (even : Bool) {b : Buffer}
    {c : Nat × Nat} (hy : c.1 < b.H) (hx : c.2 < b.W)
    (hH : second.H = b.H) (hW : second.W = b.W) :
    ∃ b1, propCellStep second p even b c = some b1 ∧ b1.H = b.H ∧ b1.W = b.W := by
  have hinv : ∀ b2 o, o ∈ propOffsets even → (b2.H = b.H ∧ b2.W = b.W) →
      ∃ b3, propOffsetStep second p c.1 c.2 b2 o = some b3 ∧ b3.H = b.H ∧ b3.W = b.W := by
    intro b2 o _ hP
    obtain ⟨vu, heq, hbnd⟩ := propOffsetStep_cand second p c.1 c.2 b2 o
    have hb2 := hbnd (hP.1.symm ▸ Nat.lt_of_le_of_lt (Nat.zero_le _) hy)
      (hP.2.symm ▸ Nat.lt_of_le_of_lt (Nat.zero_le _) hx)
    have hsome := @tryImprove_isSome second p c.1 c.2 vu b2 (hP.1.symm ▸ hy)
      (hP.2.symm ▸ hx)
      ⟨hb2.1, by rw [hH, ← hP.1]; exact hb2.2.1⟩
      ⟨hb2.2.2.1, by rw [hW, ← hP.2]; exact hb2.2.2.2⟩
    obtain ⟨b3, h3⟩ := Option.isSome_iff_exists.mp hsome
    obtain ⟨e1, e2, _, _⟩ := tryImprove_same h3
    exact ⟨b3, by rw [heq]; exact h3, e1.trans hP.1, e2.trans hP.2⟩
  obtain ⟨b1, h1, h2⟩ := foldlM_option_total_inv (fun b2 => b2.H = b.H ∧ b2.W = b.W)
    (propOffsetStep second p c.1 c.2) (propOffsets even) hinv b ⟨rfl, rfl⟩
  exact ⟨b1, h1, h2.1, h2.2⟩

theorem patches_propagate_total (first second : Buffer) (i p : Nat)
    (hH : second.H = first.H) (hW : second.W = first.W) :
    (patches_propagate first second i p).isSome := by
  have hstep : ∀ (cells : List (Nat × Nat)),
      (∀ c ∈ cells, c.1 < first.H ∧ c.2 < first.W) →
      ∃ b1, List.foldlM (propCellStep second p (i % 2 == 0)) first cells = some b1 := by
    intro cells hmem
    have hinv : ∀ b2 c, c ∈ cells → (b2.H = first.H ∧ b2.W = first.W) →
        ∃ b3, propCellStep second p (i % 2 == 0) b2 c = some b3 ∧
          b3.H = first.H ∧ b3.W = first.W := by
      intro b2 c hc hP
      obtain ⟨h3a, h3b⟩ := hmem c hc
      obtain ⟨b3, h3, hsh⟩ := propCellStep_total p (i % 2 == 0) (hP.1.symm ▸ h3a)
        (hP.2.symm ▸ h3b) (hH.trans hP.1.symm) (hW.trans hP.2.symm)
      exact ⟨b3, h3, hsh.1.trans hP.1, hsh.2.trans hP.2⟩
    obtain ⟨b1, h1, _⟩ := foldlM_option_total_inv
      (fun b2 => b2.H = first.H ∧ b2.W = first.W)
      (propCellStep second p (i % 2 == 0)) cells hinv first ⟨rfl, rfl⟩
    exact ⟨b1, h1⟩
  simp only [patches_propagate]
  split
  · obtain ⟨b1, h1⟩ := hstep (rowMajor first.H first.W) rowMajor_mem_bounds
    rw [h1]
    rfl
  · obtain ⟨b1, h1⟩ := hstep (rowMajor first.H first.W).reverse
      (fun c hc => rowMajor_mem_bounds c (List.mem_reverse.mp hc))
    rw [h1]
    rfl

theorem patches_initialize_coherent {first second : Buffer} {p : Nat} {b0 : Buffer}
    (h : patches_initialize first second p = some b0) : coherent b0 second := by
  unfold patches_initialize at h
  obtain ⟨e1, e2, e3, e4, e5, hsc⟩ := init_fold_char second p _ first b0 h
  intro y hy x hx
  rw [e1] at hy
  rw [e2] at hx
  have hs := (hsc y x).1 (mem_rowMajor.mpr ⟨hy, hx⟩)
  rw [patches_score_padding first y x second _ _ p] at hs
  rw [e5, patches_score_congr e1 e2 e3 e4]
  exact hs

theorem patches_initialize_same {first second : Buffer} {p : Nat} {b0 : Buffer}
    (h : patches_initialize first second p = some b0) :
    b0.H = first.H ∧ b0.W = first.W ∧ b0.indices = first.indices := by
  unfold patches_initialize at h
  obtain ⟨e1, e2, _, _, e5, _⟩ := init_fold_char second p _ first b0 h
  exact ⟨e1, e2, e5⟩

theorem patches_initialize_inOwnBounds {first second : Buffer} {p : Nat} {b0 : Buffer}
    (h : patches_initialize first second p = some b0) (hb : inOwnBounds first) :
    inOwnBounds b0 := by
  obtain ⟨e1, e2, e5⟩ := patches_initialize_same h
  intro y hy x hx
  rw [e1] at hy
  rw [e2] at hx
  rw [e5, e1, e2]
  exact hb y hy x hx

theorem merge_flow_indices_some {child p out : Buffer}
    (h : merge_flow_indices child (some p) = some out) :
    child.H = 2 * p.H ∧ child.W = 2 * p.W ∧ out.H = child.H ∧ out.W = child.W ∧
      ∀ y x, out.indices y x =
        (2 * (p.indices (y / 2) (x / 2)).1, 2 * (p.indices (y / 2) (x / 2)).2) := by
  simp only [merge_flow_indices] at h
  split at h
  · rename_i hsh
    injection h with h
    subst h
    exact ⟨hsh.1, hsh.2, rfl, rfl, fun y x => rfl⟩
  · exact absurd h (by simp)

theorem merge_flow_indices_inOwnBounds {child p out : Buffer}
    (h : merge_flow_indices child (some p) = some out) (hb : inOwnBounds p) :
    inOwnBounds out := by
  obtain ⟨hH, hW, eH, eW, hidx⟩ := merge_flow_indices_some h
  intro y hy x hx
  rw [eH, hH] at hy
  rw [eW, hW] at hx
  have hy2 : y / 2 < p.H := by omega
  have hx2 : x / 2 < p.W := by omega
  have hp := hb (y / 2) hy2 (x / 2) hx2
  rw [hidx]
  refine ⟨by omega, ?_, by omega, ?_⟩
  · rw [eH, hH]
    push_cast
    omega
  · rw [eW, hW]
    push_cast
    omega

theorem sumSq_nonneg (d : List ℚ) : 0 ≤ sumSq d := by
  induction d with
  | nil => simp [sumSq]
  | cons a l ih =>
    have hs : sumSq (a :: l) = a * a + sumSq l := by simp [sumSq]
    rw [hs]
    exact add_nonneg (mul_self_nonneg a) ih

theorem sumSq_eq_zero {d : List ℚ} (h : sumSq d = 0) : ∀ a ∈ d, a = 0 := by
  induction d with
  | nil => simp
  | cons a l ih =>
    have hs : sumSq (a :: l) = a * a + sumSq l := by simp [sumSq]
    rw [hs] at h
    have h1 : 0 ≤ a * a := mul_self_nonneg a
    have h2 : 0 ≤ sumSq l := sumSq_nonneg l
    have ha : a * a = 0 := by linarith
    have hl : sumSq l = 0 := by linarith
    intro b hb
    cases List.mem_cons.mp hb with
    | inl h0 =>
      subst h0
      exact mul_self_eq_zero.mp ha
    | inr h0 => exact ih hl b h0

/-- C1: for every pair of levels and every in-bounds pair of cell coordinates
`(y, x)` in the first and `(v, u)` in the second, `Model.patches_score`
returns exactly `0.5 * (dot(first.patches_repro[y,x], second.patches_orign[v,u])
+ dot(first.patches_orign[y,x], second.patches_repro[v,u]))`. -/
theorem C1_patches_score_eq_spec (first second : Buffer) (y x v u p : Nat)
    (hy : y < first.H) (hx : x < first.W) (hv : v < second.H) (hu : u < second.W) :
    patches_score first y x second (v : ℤ) (u : ℤ) p =
      some (score_spec first second y x v u) := by
  have h1 : (0 : ℤ) ≤ (v : ℤ) := Int.natCast_nonneg v
  have h2 : ((v : ℤ)) < (second.H : ℤ) := by exact_mod_cast hv
  have h3 : (0 : ℤ) ≤ (u : ℤ) := Int.natCast_nonneg u
  have h4 : ((u : ℤ)) < (second.W : ℤ) := by exact_mod_cast hu
  unfold patches_score score_spec
  rw [if_pos ⟨hy, hx, h1, h2, h3, h4⟩]
  simp [Int.toNat_natCast]

/-- Witness for C1 at a concrete level pair and cell. -/
theorem C1_witness :
    0 < bufA.H ∧ 1 < bufA.W ∧
    patches_score bufA 0 1 bufA (0 : ℤ) (1 : ℤ) 2 = some (score_spec bufA bufA 0 1 0 1) :=
  ⟨by decide, by decide,
    C1_patches_score_eq_spec bufA bufA 0 1 0 1 2 (by decide) (by decide) (by decide) (by decide)⟩

/-- C2 fails as stated: at configured radius 4 (a radius the source schedule
really uses), the first odd refinement iteration random-searches with
`times = 4 // 2 = 2` repeats, whereas `max(radius, 12) / 2 = 6`. -/
theorem C2_counterexample :
    (compute_flow_ops 4)[1]? = some (FlowOp.search 2 4) ∧ (2 : ℕ) ≠ max 4 12 / 2 := by
  constructor
  · rfl
  · decide

/-- C2 amended: every odd outer iteration of the refinement loop calls the
random search with repeat count `(radius if radius > 0 else 12) // 2` (that
is, `radius // 2` for a positive radius and `6` otherwise) at the level's
configured radius. -/
theorem C2_search_times (radius : ℤ) (i : Nat) (hi : i < 32) (hodd : i % 2 = 1) :
    (compute_flow_ops radius)[i]? =
      some (FlowOp.search (((if 0 < radius then radius else 12) / 2).toNat) radius) := by
  unfold compute_flow_ops
  rw [List.getElem?_map, List.getElem?_range hi]
  simp only [Option.map_some']
  rw [if_neg (by omega)]
  rfl

/-- Witness for C2 at iteration 1 with radius 4. -/
theorem C2_witness :
    1 < 32 ∧ 1 % 2 = 1 ∧
    (compute_flow_ops 4)[1]? =
      some (FlowOp.search (((if (0 : ℤ) < 4 then (4 : ℤ) else 12) / 2).toNat) 4) :=
  ⟨by decide, by decide, C2_search_times 4 1 (by decide) (by decide)⟩

/-- C3 fails as stated: with a 1 x 2 first field (identity indices, high
stored scores) matched against a 1 x 1 second field, a random-search call
succeeds (the sampled candidates stay inside both fields), yet afterwards
the stored index pair at cell `(0, 1)` is `(0, 1)`, whose column lies outside
the opposing field's bounds `W_other = 1`: the source clamps and samples
against the field's own shape, not the opposing one. -/
theorem C3_counterexample :
    (patches_search cexFirst cexSecond 1 1 0 (fun _ => 0) 0).isSome ∧
    (patches_search cexFirst cexSecond 1 1 0 (fun _ => 0) 0).map
      (fun s => s.1.indices 0 1) = some (0, 1) ∧
    ¬ ((1 : ℤ) < (cexSecond.W : ℤ)) :=
  ⟨by with_unfolding_all decide, by with_unfolding_all decide, by decide⟩

/-- C3 amended: every mutation step keeps every stored index pair inside the
field's own `H x W` bounds, the bounds the source actually clamps against
(`first.indices.shape`); these coincide with the opposing field's bounds
exactly when the two fields share a spatial shape.  Initialize leaves the
indices unchanged, propagate and random search clamp every accepted
candidate to the own shape, merge upsampling doubles parent indices that lay
in the parent's own bounds, and merge with an absent parent is the
identity. -/
theorem C3_indices_in_own_bounds :
    (∀ (first second : Buffer) (p : Nat) (b0 : Buffer),
      inOwnBounds first → patches_initialize first second p = some b0 →
        inOwnBounds b0) ∧
    (∀ (first second : Buffer) (i p : Nat) (b1 : Buffer),
      inOwnBounds first → patches_propagate first second i p = some b1 →
        inOwnBounds b1) ∧
    (∀ (first second : Buffer) (times : Nat) (radius : ℤ) (p : Nat)
        (rng : Nat → Nat) (c0 : Nat) (out : Buffer × Nat),
      inOwnBounds first → patches_search first second times radius p rng c0 = some out →
        inOwnBounds out.1) ∧
    (∀ (child par out : Buffer), inOwnBounds par →
      merge_flow_indices child (some par) = some out → inOwnBounds out) ∧
    (∀ child : Buffer, merge_flow_indices child none = some child) :=
  ⟨fun _ _ _ _ hb h => patches_initialize_inOwnBounds h hb,
   fun _ _ _ _ _ hb h => patches_propagate_inOwnBounds h hb,
   fun _ _ _ _ _ _ _ _ hb h => patches_search_inOwnBounds h hb,
   fun _ _ _ hb h => merge_flow_indices_inOwnBounds h hb,
   fun _ => rfl⟩

/-- Witness for the amended C3: a concrete propagate call preserves the
own-bounds invariant. -/
theorem C3_witness :
    inOwnBounds bufA ∧ (patches_propagate bufA bufA 1 0).isSome ∧
    inOwnBounds ((patches_propagate bufA bufA 1 0).getD bufA) := by
  refine ⟨by with_unfolding_all decide, by with_unfolding_all decide, ?_⟩
  have hs : (patches_propagate bufA bufA 1 0).isSome := by with_unfolding_all decide
  obtain ⟨b1, hb1⟩ := Option.isSome_iff_exists.mp hs
  have hres := C3_indices_in_own_bounds.2.1 bufA bufA 1 0 b1
    (by with_unfolding_all decide) hb1
  rw [hb1]
  exact hres

/-- C4 fails as stated: with a 1 x 2 first field matched against a 1 x 1
second field, a radius <= 0 draw can sample the candidate `(0, 1)`, whose
column lies outside the opposing field's extent `[0, 1) x [0, 1)`: the
sampling ranges over the field's own extent (`first.indices.shape`), not the
opposing one. -/
theorem C4_counterexample :
    search_candidate cexFirst (-1) 0 0 0 1 = (0, 1) ∧
    ¬ ((1 : ℤ) < (cexSecond.W : ℤ)) :=
  ⟨by decide, by decide⟩

/-- C4 amended: when the random search is called with radius <= 0, each
sampled candidate is drawn uniformly over the field's own spatial extent
`[0, H) x [0, W)`: every draw lands inside it, and every one of its cells is
reached by some pair of stream values.  This equals the opposing field's
extent exactly when the two shapes agree. -/
theorem C4_uniform_own_extent (b : Buffer) (radius : ℤ) (y x : Nat)
    (hr : radius ≤ 0) (hH : 0 < b.H) (hW : 0 < b.W) :
    (∀ d1 d2 : Nat,
      0 ≤ (search_candidate b radius y x d1 d2).1 ∧
      (search_candidate b radius y x d1 d2).1 < (b.H : ℤ) ∧
      0 ≤ (search_candidate b radius y x d1 d2).2 ∧
      (search_candidate b radius y x d1 d2).2 < (b.W : ℤ)) ∧
    (∀ v u : Nat, v < b.H → u < b.W →
      search_candidate b radius y x v u = ((v : ℤ), (u : ℤ))) := by
  have hnr : ¬ (0 < radius) := by omega
  constructor
  · intro d1 d2
    exact search_candidate_bounds radius y x d1 d2 hH hW
  · intro v u hv hu
    unfold search_candidate
    rw [if_neg hnr, randint_eq_self (by exact_mod_cast hv),
      randint_eq_self (by exact_mod_cast hu)]

/-- Witness for the amended C4 on a concrete 2 x 2 field: draws stay in the
own extent and the cell `(1, 1)` is reached. -/
theorem C4_witness :
    (-1 : ℤ) ≤ 0 ∧ 0 < bufA.H ∧ 0 < bufA.W ∧
    (0 ≤ (search_candidate bufA (-1) 0 0 5 7).1 ∧
      (search_candidate bufA (-1) 0 0 5 7).1 < (bufA.H : ℤ) ∧
      0 ≤ (search_candidate bufA (-1) 0 0 5 7).2 ∧
      (search_candidate bufA (-1) 0 0 5 7).2 < (bufA.W : ℤ)) ∧
    search_candidate bufA (-1) 0 0 1 1 = (1, 1) :=
  ⟨by decide, by decide, by decide,
    (C4_uniform_own_extent bufA (-1) 0 0 (by decide) (by decide) (by decide)).1 5 7,
    (C4_uniform_own_extent bufA (-1) 0 0 (by decide) (by decide) (by decide)).2 1 1
      (by decide) (by decide)⟩

/-- C5 fails as stated: the descriptor `[0, 0]` has zero norm, and after the
unguarded `patches / patches_norm` its stored entries are the IEEE value
`0 / 0 = NaN`, not a zero vector. -/
theorem C5_counterexample :
    sumSq [(0 : ℚ), 0] = 0 ∧
    (∀ e ∈ normalize_desc [(0 : ℚ), 0], e.isNaN) ∧
    ¬ (∀ e ∈ normalize_desc [(0 : ℚ), 0], e.isZero) := by
  refine ⟨by with_unfolding_all decide, by with_unfolding_all decide,
    by with_unfolding_all decide⟩

/-- C5 amended: a descriptor whose Euclidean norm is exactly zero is not left
as a zero vector: every entry of its normalized form is the IEEE quotient
`0 / 0 = NaN` (the division in the source has no zero-norm guard; numpy
continues with a warning rather than aborting, and the resulting NaN scores
are never accepted by the strict greedy comparisons). -/
theorem C5_zero_norm_nan (d : List ℚ) (h : sumSq d = 0) :
    ∀ e ∈ normalize_desc d, e.isNaN := by
  intro e he
  simp only [normalize_desc, List.mem_map] at he
  obtain ⟨a, ha, rfl⟩ := he
  exact ⟨h, sumSq_eq_zero h a ha⟩

/-- Witness for the amended C5 at the concrete zero descriptor `[0, 0, 0]`. -/
theorem C5_witness :
    sumSq [(0 : ℚ), 0, 0] = 0 ∧ ∀ e ∈ normalize_desc [(0 : ℚ), 0, 0], e.isNaN :=
  ⟨by with_unfolding_all decide, C5_zero_norm_nan _ (by with_unfolding_all decide)⟩

/-- C6: across any finite sequence of propagate and random-search calls on a
field (each accepting a candidate only when its score strictly exceeds the
stored one), the stored score of every cell never decreases. -/
theorem C6_scores_monotone (second : Buffer) (rng : Nat → Nat) (s : Buffer × Nat)
    (ops : List MOp) (out : Buffer × Nat) (h : runOps second rng s ops = some out) :
    ∀ y x, s.1.scores y x ≤ out.1.scores y x :=
  runOps_mono h

/-- Witness for C6 on a concrete propagate-then-search sequence. -/
theorem C6_witness :
    (runOps bufA (fun _ => 0) (bufA, 0) [MOp.prop 0 1, MOp.search 1 1 1]).isSome ∧
    bufA.scores 0 0 ≤
      ((runOps bufA (fun _ => 0) (bufA, 0) [MOp.prop 0 1, MOp.search 1 1 1]).getD
        (bufA, 0)).1.scores 0 0 := by
  refine ⟨by with_unfolding_all decide, ?_⟩
  have hs : (runOps bufA (fun _ => 0) (bufA, 0) [MOp.prop 0 1, MOp.search 1 1 1]).isSome := by
    with_unfolding_all decide
  obtain ⟨out, hout⟩ := Option.isSome_iff_exists.mp hs
  have hres := C6_scores_monotone bufA (fun _ => 0) (bufA, 0)
    [MOp.prop 0 1, MOp.search 1 1 1] out hout 0 0
  rw [hout]
  exact hres

/-- C7: after initialize and any subsequent sequence of propagate and
random-search calls (with the patch banks held fixed), every cell's stored
score equals the scoring formula applied to its stored index pair. -/
theorem C7_scores_coherent (first second : Buffer) (p : Nat) (b0 : Buffer)
    (rng : Nat → Nat) (c0 : Nat) (ops : List MOp) (out : Buffer × Nat)
    (h0 : patches_initialize first second p = some b0)
    (h1 : runOps second rng (b0, c0) ops = some out) :
    coherent out.1 second :=
  runOps_coherent h1 (patches_initialize_coherent h0)

/-- Witness for C7 on a concrete initialize-propagate-search run. -/
theorem C7_witness :
    ( patches_initialize bufA bufA 1).isSome ∧
    (runOps bufA (fun _ => 0) ((( patches_initialize bufA bufA 1).getD bufA), 0)
      [MOp.prop 0 1, MOp.search 2 (-1) 1]).isSome ∧
    coherent ((runOps bufA (fun _ => 0)
      ((( patches_initialize bufA bufA 1).getD bufA), 0)
      [MOp.prop 0 1, MOp.search 2 (-1) 1]).getD (bufA, 0)).1 bufA := by
  have hs0 : ( patches_initialize bufA bufA 1).isSome := by with_unfolding_all decide
  have hs1 : (runOps bufA (fun _ => 0) ((( patches_initialize bufA bufA 1).getD bufA), 0)
      [MOp.prop 0 1, MOp.search 2 (-1) 1]).isSome := by with_unfolding_all decide
  refine ⟨hs0, hs1, ?_⟩
  obtain ⟨b0, hb0⟩ := Option.isSome_iff_exists.mp hs0
  obtain ⟨out, hout⟩ := Option.isSome_iff_exists.mp hs1
  have h0 : patches_initialize bufA bufA 1 =
      some (( patches_initialize bufA bufA 1).getD bufA) := by
    rw [hb0]
    exact rfl
  have hres := C7_scores_coherent bufA bufA 1 _ (fun _ => 0) 0
    [MOp.prop 0 1, MOp.search 2 (-1) 1] out h0 hout
  rw [hout]
  exact hres

/-- C8: propagate equals its spec-side description — even iterations scan
top-left to bottom-right examining the left and above cells, odd iterations
scan bottom-right to top-left examining the right and below cells, each
candidate being the examined neighbor's current stored index minus the scan
offset, clamped to field bounds — and when the two levels share a spatial
shape the sweep never indexes outside `[0, H) x [0, W)`: the call always
succeeds, corner cells included. -/
theorem C8_propagate_scan (first second : Buffer) (i p : Nat)
    (hH : second.H = first.H) (hW : second.W = first.W) :
    patches_propagate first second i p = propagate_spec first second i p ∧
    (patches_propagate first second i p).isSome :=
  ⟨patches_propagate_eq_spec first second i p,
   patches_propagate_total first second i p hH hW⟩

/-- Witness for C8 on a concrete 2 x 2 field, under both scan directions
(the field's cells are exactly its four corners). -/
theorem C8_witness :
    bufA.H = bufA.H ∧ bufA.W = bufA.W ∧
    (patches_propagate bufA bufA 0 1 = propagate_spec bufA bufA 0 1 ∧
      (patches_propagate bufA bufA 0 1).isSome) ∧
    (patches_propagate bufA bufA 1 1 = propagate_spec bufA bufA 1 1 ∧
      (patches_propagate bufA bufA 1 1).isSome) :=
  ⟨rfl, rfl, C8_propagate_scan bufA bufA 0 1 rfl rfl,
    C8_propagate_scan bufA bufA 1 1 rfl rfl⟩

/-- C9: merge with an identity-correspondence parent (and the shape the
source's assert demands) succeeds and seeds every child cell `(y, x)` with
exactly `(2 * (y / 2), 2 * (x / 2))`; merge with an absent parent is skipped
entirely, returning the child unchanged. -/
theorem C9_merge_identity (child par : Buffer)
    (hid : ∀ j, j < par.H → ∀ i, i < par.W → par.indices j i = ((j : ℤ), (i : ℤ)))
    (hH : child.H = 2 * par.H) (hW : child.W = 2 * par.W) :
    (merge_flow_indices child (some par)).isSome ∧
    (∀ out, merge_flow_indices child (some par) = some out →
      ∀ y, y < child.H → ∀ x, x < child.W →
        out.indices y x = (((2 * (y / 2) : ℕ) : ℤ), ((2 * (x / 2) : ℕ) : ℤ))) ∧
    merge_flow_indices child none = some child := by
  refine ⟨?_, ?_, rfl⟩
  · cases hm : merge_flow_indices child (some par) with
    | some out => rfl
    | none =>
      exfalso
      simp only [merge_flow_indices] at hm
      rw [if_pos ⟨hH, hW⟩] at hm
      exact absurd hm (by simp)
  · intro out hm y hy x hx
    obtain ⟨_, _, _, _, hidx⟩ := merge_flow_indices_some hm
    rw [hidx, hid (y / 2) (by omega) (x / 2) (by omega)]
    push_cast
    rfl

/-- Witness for C9: a 1 x 1 identity parent seeding a 2 x 2 child, plus the
skip on an absent parent. -/
theorem C9_witness :
    (∀ j, j < cexSecond.H → ∀ i, i < cexSecond.W →
      cexSecond.indices j i = ((j : ℤ), (i : ℤ))) ∧
    bufA.H = 2 * cexSecond.H ∧ bufA.W = 2 * cexSecond.W ∧
    (merge_flow_indices bufA (some cexSecond)).isSome ∧
    ((merge_flow_indices bufA (some cexSecond)).getD bufA).indices 1 1 = (0, 0) ∧
    merge_flow_indices bufA none = some bufA := by
  have hid : ∀ j, j < cexSecond.H → ∀ i, i < cexSecond.W →
      cexSecond.indices j i = ((j : ℤ), (i : ℤ)) := by decide
  have hres := C9_merge_identity bufA cexSecond hid rfl rfl
  refine ⟨hid, rfl, rfl, hres.1, ?_, hres.2.2⟩
  obtain ⟨out, hout⟩ := Option.isSome_iff_exists.mp hres.1
  have := hres.2.1 out hout 1 (by decide) 1 (by decide)
  rw [hout]
  exact this

/-- C10: the `padding` argument accepted by the score, initialize, propagate
and random-search operations never influences any stored index, stored score
or returned value: results at any two padding values coincide. -/
theorem C10_padding_irrelevant :
    (∀ (first second : Buffer) (y x : Nat) (v u : ℤ) (p1 p2 : Nat),
      patches_score first y x second v u p1 = patches_score first y x second v u p2) ∧
    (∀ (first second : Buffer) (p1 p2 : Nat),
      patches_initialize first second p1 = patches_initialize first second p2) ∧
    (∀ (first second : Buffer) (i p1 p2 : Nat),
      patches_propagate first second i p1 = patches_propagate first second i p2) ∧
    (∀ (first second : Buffer) (times : Nat) (radius : ℤ) (p1 p2 : Nat)
        (rng : Nat → Nat) (c0 : Nat),
      patches_search first second times radius p1 rng c0 =
        patches_search first second times radius p2 rng c0) :=
  ⟨fun _ _ _ _ _ _ _ _ => rfl, fun _ _ _ _ => rfl, fun _ _ _ _ _ => rfl,
   fun _ _ _ _ _ _ _ _ => rfl⟩

end Analogy
